import Mathlib

set_option maxRecDepth 10000

/-!
Shallow embedding of the benchmark-matrix generator in
`bench/src/memmem/mod.rs`.

Strings are modelled as `List Char` and byte sequences as `List Nat`.
The catalog of inputs (`memmem::inputs::INPUTS`, module `inputs` not part
of the sources here) and the per-implementation capability sets
(`memmem::imp`, module `imp` not part of the sources here) are parameters
of the generation pass; the matrix-expansion and naming logic itself is
translated from `mod.rs`.
-/

/-- A query from the input catalog: a named needle together with the
ground-truth number of non-overlapping occurrences of the needle in the
owning corpus. Mirrors the `Query` data consumed by the macros in
`mod.rs` (`$q.name`, `$q.needle`, `$q.count`). -/
structure Query where
  name : List Char
  needle : List Nat
  count : Nat
deriving DecidableEq

/-- An input from the catalog: a named corpus with three tiers of queries.
Mirrors the `Input` data consumed by the generation loops in `mod.rs`
(`$inp.name`, `$inp.corpus`, `inp.never`, `inp.rare`, `inp.common`). -/
structure Input where
  name : List Char
  corpus : List Nat
  never : List Query
  rare : List Query
  common : List Query
deriving DecidableEq

/-- The eight implementation variants listed by `def_all_impls!` in each
generation pass of `mod.rs`. -/
inductive Impl where
  | krate
  | krate_nopre
  | bstr
  | regex
  | stud
  | twoway
  | sliceslice
  | libc
deriving DecidableEq

/-- The name of an implementation as produced by `stringify!($impl)` in
the `format!` call of each pass. -/
def Impl.rname : Impl → List Char
  | .krate => "krate".toList
  | .krate_nopre => "krate_nopre".toList
  | .bstr => "bstr".toList
  | .regex => "regex".toList
  | .stud => "stud".toList
  | .twoway => "twoway".toList
  | .sliceslice => "sliceslice".toList
  | .libc => "libc".toList

/-- The order in which `def_all_impls!` expands the implementations. -/
def implOrder : List Impl :=
  [.krate, .krate_nopre, .bstr, .regex, .stud, .twoway, .sliceslice, .libc]

/-- The four execution modes, one per generation pass in `mod.rs`. -/
inductive Mode where
  | oneshot
  | prebuilt
  | oneshotiter
  | prebuiltiter
deriving DecidableEq

/-- The `config` string of a mode, as set by `let config = "..."` at the
top of each `def_impl!` macro in `mod.rs`. -/
def Mode.config : Mode → List Char
  | .oneshot => "oneshot".toList
  | .prebuilt => "prebuilt".toList
  | .oneshotiter => "oneshotiter".toList
  | .prebuiltiter => "prebuiltiter".toList

/-- Search direction: forward (`memmem`) or reverse (`memrmem`). -/
inductive Dir where
  | fwd
  | rev
deriving DecidableEq

/-- The direction-group component of a benchmark name, i.e. the `$dir`
argument of the inner `define!` macro: `"memmem"` for the forward call
and `"memrmem"` for the reverse call in `mod.rs`. -/
def Dir.dirName : Dir → List Char
  | .fwd => "memmem".toList
  | .rev => "memrmem".toList

/-- A capability set: the result of `imp::$impl::available($q.needle)`,
a set of capability strings drawn from
`{"oneshot","prebuilt","oneshotiter","prebuiltiter","reverse"}`.
The `imp` module is not part of the sources here, so the availability
function is a parameter of the generation pass. -/
def Avail : Type := Impl → List Nat → List (List Char)

/-- An operation performed by a registered closure, used to record where
searcher construction happens relative to the timed region. -/
inductive Op where
  | construct
  | search
  | iterCount
deriving DecidableEq

/-- The shape of a closure handed to `define`: `setup` runs once before
`b.iter`, `timed` is the body run by every timed iteration. -/
structure ClosureModel where
  setup : List Op
  timed : List Op
deriving DecidableEq

/-- The assertion performed by a registered closure against the query's
ground truth: `assert_eq!(expected, find(..))` with a boolean `expected`
in the single-shot passes, `assert_eq!($q.count, it.count())` in the
iteration passes. -/
inductive AssertSpec where
  | boolean (expected : Bool)
  | countEq (expected : Nat)
deriving DecidableEq

/-- The benchmark-name builder: the `format!("{dir}/{imp}/{config}/{inp}/{freq}-{q}", ..)`
call shared by all four generation passes in `mod.rs`. -/
def buildName (dir imp config inp freq q : List Char) : List Char :=
  dir ++ '/' :: (imp ++ '/' :: (config ++ '/' :: (inp ++ '/' :: (freq ++ '-' :: q))))

/-- One registered matrix benchmark: the tuple it was generated from, the
name built for it, the setup data (`$inp.corpus.as_bytes()`) passed to
`define`, the closure structure and the assertion it performs. -/
structure Bench where
  dir : Dir
  impl : Impl
  mode : Mode
  inpName : List Char
  freq : List Char
  q : Query
  name : List Char
  corpus : List Nat
  closure : ClosureModel
  assertS : AssertSpec
deriving DecidableEq

/-- The generation tuple of a benchmark, in the order
(direction, implementation, mode, input name, tier, query name). -/
def Bench.tuple (b : Bench) : Dir × Impl × Mode × List Char × List Char × List Char :=
  (b.dir, b.impl, b.mode, b.inpName, b.freq, b.q.name)

/-- The benchmark built by the inner `define!` macro of the `oneshot`
pass for one direction. The closure runs `$find($inp.corpus, $q.needle)`
inside `b.iter`; per the spec the `oneshot` entry point of the missing
`imp` module performs searcher construction and one search per call, so
the timed body is `[construct, search]`, and the closure asserts
`expected = $q.count > 0`. -/
def oneshotMk (inp : Input) (q : Query) (freq : List Char) (impl : Impl)
    (dir : Dir) : Bench :=
  { dir := dir, impl := impl, mode := .oneshot, inpName := inp.name,
    freq := freq, q := q,
    name := buildName dir.dirName impl.rname "oneshot".toList inp.name freq q.name,
    corpus := inp.corpus,
    closure := { setup := [], timed := [.construct, .search] },
    assertS := .boolean (decide (q.count > 0)) }

/-- The `def_impl!` macro of the `oneshot` pass (`mod.rs` lines 113-156):
admits the query when `$q.count <= 1 && available.contains(&"oneshot")`,
defines the forward benchmark unconditionally inside that check and the
reverse benchmark when `available.contains(&"reverse")`. -/
def oneshotDefImpl (avail : Avail) (inp : Input) (q : Query) (freq : List Char)
    (impl : Impl) : List Bench :=
  let config := "oneshot".toList
  let available := avail impl q.needle
  if q.count ≤ 1 ∧ config ∈ available then
    [oneshotMk inp q freq impl .fwd] ++
      (if "reverse".toList ∈ available then [oneshotMk inp q freq impl .rev] else [])
  else []

/-- The benchmark built by the inner `define!` macro of the `prebuilt`
pass for one direction: the closure builds the finder once
(`let find = $new_finder($q.needle)`) outside `b.iter` and runs only the
search inside it, asserting `expected = $q.count > 0`. -/
def prebuiltMk (inp : Input) (q : Query) (freq : List Char) (impl : Impl)
    (dir : Dir) : Bench :=
  { dir := dir, impl := impl, mode := .prebuilt, inpName := inp.name,
    freq := freq, q := q,
    name := buildName dir.dirName impl.rname "prebuilt".toList inp.name freq q.name,
    corpus := inp.corpus,
    closure := { setup := [.construct], timed := [.search] },
    assertS := .boolean (decide (q.count > 0)) }

/-- The `def_impl!` macro of the `prebuilt` pass (`mod.rs` lines 183-224):
same admission rule as `oneshot`. -/
def prebuiltDefImpl (avail : Avail) (inp : Input) (q : Query) (freq : List Char)
    (impl : Impl) : List Bench :=
  let config := "prebuilt".toList
  let available := avail impl q.needle
  if q.count ≤ 1 ∧ config ∈ available then
    [prebuiltMk inp q freq impl .fwd] ++
      (if "reverse".toList ∈ available then [prebuiltMk inp q freq impl .rev] else [])
  else []

/-- The `def_impl!` macro of the `oneshot_iter` pass (`mod.rs` lines
251-292): admits the query when `$q.count > 1 &&
available.contains(&"oneshotiter")`; the closure builds the iterator
inside `b.iter` (`$find_iter($inp.corpus, $q.needle)`, construction
included per the spec for the missing `imp` module) and asserts
`$q.count = it.count()`. -/
def oneshotIterMk (inp : Input) (q : Query) (freq : List Char) (impl : Impl)
    (dir : Dir) : Bench :=
  { dir := dir, impl := impl, mode := .oneshotiter, inpName := inp.name,
    freq := freq, q := q,
    name := buildName dir.dirName impl.rname "oneshotiter".toList inp.name freq q.name,
    corpus := inp.corpus,
    closure := { setup := [], timed := [.construct, .iterCount] },
    assertS := .countEq q.count }

/-- The admission-and-capability check of the `oneshot_iter` pass:
`$q.count > 1 && available.contains(&"oneshotiter")`, with the reverse
benchmark additionally behind `available.contains(&"reverse")`. -/
def oneshotIterDefImpl (avail : Avail) (inp : Input) (q : Query) (freq : List Char)
    (impl : Impl) : List Bench :=
  let config := "oneshotiter".toList
  let available := avail impl q.needle
  if q.count > 1 ∧ config ∈ available then
    [oneshotIterMk inp q freq impl .fwd] ++
      (if "reverse".toList ∈ available then [oneshotIterMk inp q freq impl .rev] else [])
  else []

/-- The `def_impl!` macro of the `prebuilt_iter` pass (`mod.rs` lines
319-360): same admission rule as `oneshot_iter`; the closure builds the
finder once (`let finder = $new_finder($q.needle)`) outside `b.iter` and
only iterates and counts inside it, asserting `$q.count = it.count()`. -/
def prebuiltIterMk (inp : Input) (q : Query) (freq : List Char) (impl : Impl)
    (dir : Dir) : Bench :=
  { dir := dir, impl := impl, mode := .prebuiltiter, inpName := inp.name,
    freq := freq, q := q,
    name := buildName dir.dirName impl.rname "prebuiltiter".toList inp.name freq q.name,
    corpus := inp.corpus,
    closure := { setup := [.construct], timed := [.iterCount] },
    assertS := .countEq q.count }

/-- The admission-and-capability check of the `prebuilt_iter` pass:
`$q.count > 1 && available.contains(&"prebuiltiter")`, with the reverse
benchmark additionally behind `available.contains(&"reverse")`. -/
def prebuiltIterDefImpl (avail : Avail) (inp : Input) (q : Query) (freq : List Char)
    (impl : Impl) : List Bench :=
  let config := "prebuiltiter".toList
  let available := avail impl q.needle
  if q.count > 1 ∧ config ∈ available then
    [prebuiltIterMk inp q freq impl .fwd] ++
      (if "reverse".toList ∈ available then [prebuiltIterMk inp q freq impl .rev] else [])
  else []

/-- The loop body shared by every pass: `def_all_impls!` expands
`def_impl!` for the eight implementations, and the outer loops walk the
three query tiers of every input. `defImpl` is the pass-specific
`def_impl!` expansion. -/
def passBenches (defImpl : Input → Query → List Char → Impl → List Bench)
    (catalog : List Input) : List Bench :=
  catalog.flatMap fun inp =>
    (inp.never.flatMap fun q => implOrder.flatMap (defImpl inp q "never".toList)) ++
    (inp.rare.flatMap fun q => implOrder.flatMap (defImpl inp q "rare".toList)) ++
    (inp.common.flatMap fun q => implOrder.flatMap (defImpl inp q "common".toList))

/-- The `oneshot` generation pass (`fn oneshot` in `mod.rs`). -/
def oneshotPass (catalog : List Input) (avail : Avail) : List Bench :=
  passBenches (oneshotDefImpl avail) catalog

/-- The `prebuilt` generation pass (`fn prebuilt` in `mod.rs`). -/
def prebuiltPass (catalog : List Input) (avail : Avail) : List Bench :=
  passBenches (prebuiltDefImpl avail) catalog

/-- The `oneshot_iter` generation pass (`fn oneshot_iter` in `mod.rs`). -/
def oneshotIterPass (catalog : List Input) (avail : Avail) : List Bench :=
  passBenches (oneshotIterDefImpl avail) catalog

/-- The `prebuilt_iter` generation pass (`fn prebuilt_iter` in `mod.rs`). -/
def prebuiltIterPass (catalog : List Input) (avail : Avail) : List Bench :=
  passBenches (prebuiltIterDefImpl avail) catalog

/-- All matrix benchmarks registered by `fn all` in `mod.rs`, in
registration order: the `oneshot`, `prebuilt`, `oneshot_iter` and
`prebuilt_iter` passes. (The `sliceslice` sub-suite is a separate module
not part of the sources here; the `misc` benchmarks are modelled below.) -/
def allMatrix (catalog : List Input) (avail : Avail) : List Bench :=
  oneshotPass catalog avail ++ prebuiltPass catalog avail ++
    oneshotIterPass catalog avail ++ prebuiltIterPass catalog avail

/-- A benchmark registered by the `misc` functions: only the name and the
setup data passed to `define` are relevant to the properties below. -/
structure MiscBench where
  name : List Char
  corpus : List Nat
deriving DecidableEq

/-- The needles of `fn finder_construction` in `mod.rs`
(`const NEEDLES: [&str; 3] = ["a", "abcd", "abcdefgh12345678"]`),
as byte sequences. -/
def constructionNeedles : List (List Nat) :=
  ["a".toList.map Char.toNat, "abcd".toList.map Char.toNat,
    "abcdefgh12345678".toList.map Char.toNat]

/-- The benchmarks registered by `fn finder_construction` in `mod.rs`:
for each needle, a `default(len=..)` and a `custom(len=..)` benchmark
under `memmem/krate/misc/construct-finder/`, with the needle bytes as
setup data. -/
def finderConstruction : List MiscBench :=
  constructionNeedles.flatMap fun needle =>
    [ { name := ("memmem/krate/misc/construct-finder/default(len=" ++
          toString needle.length ++ ")").toList,
        corpus := needle },
      { name := ("memmem/krate/misc/construct-finder/custom(len=" ++
          toString needle.length ++ ")").toList,
        corpus := needle } ]

/-- The two benchmarks registered by `fn byte_frequencies` once the
executable has been read: `memmem/krate/misc/frequency-table/default`
and `.../custom`, both with the executable's bytes as setup data. -/
def byteFrequenciesBenches (exeBytes : List Nat) : List MiscBench :=
  [ { name := "memmem/krate/misc/frequency-table/default".toList,
      corpus := exeBytes },
    { name := "memmem/krate/misc/frequency-table/custom".toList,
      corpus := exeBytes } ]

/-- The `fn byte_frequencies` pass in `mod.rs`: it first reads the running
executable (`std::fs::read(exe).unwrap()`); `exeRead` is the outcome of
that read. `unwrap` on a failed read aborts the run (`none`), before any
`define` call of this function; on success the two frequency-table
benchmarks are registered over the bytes read. -/
def byteFrequencies (exeRead : Option (List Nat)) : Option (List MiscBench) :=
  match exeRead with
  | none => none
  | some exeBytes => some (byteFrequenciesBenches exeBytes)

/-- All names registered by the modelled generation pass when the
executable read succeeds: the four matrix passes followed by the `misc`
benchmarks (`finder_construction` then `byte_frequencies`). -/
def allRegisteredNames (catalog : List Input) (avail : Avail)
    (exeBytes : List Nat) : List (List Char) :=
  (allMatrix catalog avail).map Bench.name ++
    (finderConstruction ++ byteFrequenciesBenches exeBytes).map MiscBench.name

/-- The 256-entry byte-frequency table of `impl HeuristicFrequencyRank for
Hfrx86` in `mod.rs`, row for row. -/
def hfrx86Table : List Nat :=
  [255, 128, 61, 43, 50, 41, 27, 28, 57, 15, 21, 13, 24, 17, 17, 89,
    58, 16, 11, 7, 14, 23, 7, 6, 24, 9, 6, 5, 9, 4, 7, 16, 68, 11, 9,
    6, 88, 7, 4, 4, 23, 9, 4, 8, 8, 5, 10, 4, 30, 11, 9, 24, 11, 5, 5,
    5, 19, 11, 6, 17, 9, 9, 6, 8, 48, 58, 11, 14, 53, 40, 9, 9, 254,
    35, 3, 6, 52, 23, 6, 6, 27, 4, 7, 11, 14, 13, 10, 11, 11, 5, 2,
    10, 16, 12, 6, 19, 19, 20, 5, 14, 16, 31, 19, 7, 14, 20, 4, 4, 19,
    8, 18, 20, 24, 1, 25, 19, 58, 29, 10, 5, 15, 20, 2, 2, 9, 4, 3, 5,
    51, 11, 4, 53, 23, 39, 6, 4, 13, 81, 4, 186, 5, 67, 3, 2, 15, 0,
    0, 1, 3, 2, 0, 0, 5, 0, 0, 0, 2, 0, 0, 0, 12, 2, 1, 1, 3, 1, 1, 1,
    6, 1, 2, 1, 3, 1, 1, 2, 9, 1, 1, 0, 2, 2, 4, 4, 11, 6, 7, 3, 6, 9,
    4, 5, 46, 18, 8, 18, 17, 3, 8, 20, 16, 10, 3, 7, 175, 4, 6, 7, 13,
    3, 7, 3, 3, 1, 3, 3, 10, 3, 1, 5, 2, 0, 1, 2, 16, 3, 5, 1, 6, 1,
    1, 2, 58, 20, 3, 14, 12, 2, 1, 3, 16, 3, 5, 8, 3, 1, 8, 6, 17, 6,
    5, 3, 8, 6, 13, 175]

/-- `Hfrx86::rank`: the table lookup `TABLE[byte as usize]`. Indexing a
Rust array panics out of bounds, so the lookup is modelled fallibly with
`List.get?`; totality over bytes is the in-bounds property proved below. -/
def hfrx86Rank (byte : Nat) : Option Nat :=
  hfrx86Table.get? byte

/-- Splitting a character list at a separator, the fixed slash grammar of
the benchmark names (`{dir}/{imp}/{config}/{inp}/{freq}-{q}`). -/
def splitOn (sep : Char) : List Char → List (List Char)
  | [] => [[]]
  | c :: cs =>
    match splitOn sep cs with
    | [] => [[]]
    | r :: rs => if c = sep then [] :: r :: rs else (c :: r) :: rs

/-- Removes a leading literal from a character list, or fails. Used to
take the tier off the last name component. -/
def stripLead : List Char → List Char → Option (List Char)
  | [], s => some s
  | _ :: _, [] => none
  | p :: ps, c :: cs => if p = c then stripLead ps cs else none

/-- Decodes a direction-group component back to a direction. -/
def parseDir (s : List Char) : Option Dir :=
  if s = "memmem".toList then some .fwd
  else if s = "memrmem".toList then some .rev
  else none

/-- Decodes an implementation component back to an implementation. -/
def parseImpl (s : List Char) : Option Impl :=
  if s = "krate".toList then some .krate
  else if s = "krate_nopre".toList then some .krate_nopre
  else if s = "bstr".toList then some .bstr
  else if s = "regex".toList then some .regex
  else if s = "stud".toList then some .stud
  else if s = "twoway".toList then some .twoway
  else if s = "sliceslice".toList then some .sliceslice
  else if s = "libc".toList then some .libc
  else none

/-- Decodes a config component back to a mode. -/
def parseMode (s : List Char) : Option Mode :=
  if s = "oneshot".toList then some .oneshot
  else if s = "prebuilt".toList then some .prebuilt
  else if s = "oneshotiter".toList then some .oneshotiter
  else if s = "prebuiltiter".toList then some .prebuiltiter
  else none

/-- Splits the last name component `{freq}-{q}` at the tier before the
hyphen, trying the three tiers in turn. -/
def parseTierQuery (s : List Char) : Option (List Char × List Char) :=
  match stripLead "never-".toList s with
  | some q => some ("never".toList, q)
  | none =>
    match stripLead "rare-".toList s with
    | some q => some ("rare".toList, q)
    | none =>
      match stripLead "common-".toList s with
      | some q => some ("common".toList, q)
      | none => none

/-- Decodes a benchmark name by the fixed slash grammar: five
slash-separated components, the last split at the tier prefix before the
hyphen. -/
def parseName (nm : List Char) :
    Option (Dir × Impl × Mode × List Char × List Char × List Char) :=
  match splitOn '/' nm with
  | [d, i, m, inp, last] =>
    match parseDir d, parseImpl i, parseMode m, parseTierQuery last with
    | some dir, some impl, some mode, some (freq, q) =>
      some (dir, impl, mode, inp, freq, q)
    | _, _, _, _ => none
  | _ => none

/-- The spec's pre-sanitization assumption on catalog component names
(names contain no slashes). Modelled from the spec: the concrete
`INPUTS` catalog lives in the `inputs` module, which is not part of the
sources here; §4.3 of the spec assumes component names pre-sanitized. -/
def sanitizedCatalog (catalog : List Input) : Prop :=
  ∀ inp ∈ catalog, '/' ∉ inp.name ∧
    ∀ q ∈ inp.never ++ inp.rare ++ inp.common, '/' ∉ q.name

instance (catalog : List Input) : Decidable (sanitizedCatalog catalog) := by
  unfold sanitizedCatalog
  infer_instance

/-- Boolean name-prefix test, used to state which direction group a
registered name belongs to. -/
def startsWith : List Char → List Char → Bool
  | [], _ => true
  | _ :: _, [] => false
  | p :: ps, c :: cs => p = c && startsWith ps cs

/-! ### Properties of the slash grammar -/

theorem splitOn_ne_nil (sep : Char) (l : List Char) : splitOn sep l ≠ [] := by
  cases l with
  | nil => simp [splitOn]
  | cons c cs =>
    simp only [splitOn]
    cases h : splitOn sep cs with
    | nil => simp
    | cons r rs =>
      by_cases hc : c = sep <;> simp [hc]

theorem splitOn_sep_not_mem (sep : Char) (xs : List Char) (h : sep ∉ xs) :
    splitOn sep xs = [xs] := by
  induction xs with
  | nil => rfl
  | cons c cs ih =>
    have hc : c ≠ sep := fun hc => h (hc ▸ List.mem_cons_self c cs)
    have hcs : sep ∉ cs := fun hm => h (List.mem_cons_of_mem c hm)
    simp only [splitOn, ih hcs]
    simp [hc]

theorem splitOn_append (sep : Char) (xs rest : List Char) (h : sep ∉ xs) :
    splitOn sep (xs ++ sep :: rest) = xs :: splitOn sep rest := by
  induction xs with
  | nil =>
    simp only [List.nil_append, splitOn]
    cases hr : splitOn sep rest with
    | nil => exact absurd hr (splitOn_ne_nil sep rest)
    | cons r rs => simp
  | cons c cs ih =>
    have hc : c ≠ sep := fun hc => h (hc ▸ List.mem_cons_self c cs)
    have hcs : sep ∉ cs := fun hm => h (List.mem_cons_of_mem c hm)
    simp only [List.cons_append, splitOn, List.append_eq]
    rw [ih hcs]
    simp [hc]

theorem mem_splitOn_sep_not_mem (sep : Char) (s comp : List Char)
    (h : comp ∈ splitOn sep s) : sep ∉ comp := by
  induction s generalizing comp with
  | nil =>
    simp only [splitOn, List.mem_singleton] at h
    subst h; simp
  | cons c cs ih =>
    simp only [splitOn] at h
    cases hr : splitOn sep cs with
    | nil => exact absurd hr (splitOn_ne_nil sep cs)
    | cons r rs =>
      rw [hr] at h
      by_cases hc : c = sep
      · simp only [if_pos hc, List.mem_cons] at h
        rcases h with h | h | h
        · subst h; simp
        · exact ih comp (hr ▸ (h ▸ List.mem_cons_self r rs))
        · exact ih comp (hr ▸ List.mem_cons_of_mem r h)
      · simp only [if_neg hc, List.mem_cons] at h
        rcases h with h | h
        · subst h
          intro hmem
          rcases List.mem_cons.mp hmem with hmem | hmem
          · exact hc hmem.symm
          · exact ih r (hr ▸ List.mem_cons_self r rs) hmem
        · exact ih comp (hr ▸ List.mem_cons_of_mem r h)

theorem stripLead_append (p t : List Char) : stripLead p (p ++ t) = some t := by
  induction p with
  | nil => rfl
  | cons c cs ih => simp [stripLead, ih]

theorem parseDir_dirName (d : Dir) : parseDir d.dirName = some d := by
  cases d <;> rfl

theorem parseImpl_rname (i : Impl) : parseImpl i.rname = some i := by
  cases i <;> rfl

theorem parseMode_config (m : Mode) : parseMode m.config = some m := by
  cases m <;> rfl

theorem slash_not_mem_dirName (d : Dir) : '/' ∉ d.dirName := by
  cases d <;> decide

theorem slash_not_mem_rname (i : Impl) : '/' ∉ i.rname := by
  cases i <;> decide

theorem slash_not_mem_config (m : Mode) : '/' ∉ m.config := by
  cases m <;> decide

/-- A tier string: one of the three `$freq` literals fed to the macros by
the outer loops of every pass. -/
def isTierName (freq : List Char) : Prop :=
  freq = "never".toList ∨ freq = "rare".toList ∨ freq = "common".toList

theorem parseTierQuery_build (freq q : List Char) (hfreq : isTierName freq) :
    parseTierQuery (freq ++ '-' :: q) = some (freq, q) := by
  rcases hfreq with h | h | h <;> subst h <;> rfl

theorem slash_not_mem_tier (freq : List Char) (hfreq : isTierName freq) :
    '/' ∉ freq := by
  rcases hfreq with h | h | h <;> subst h <;> decide

/-- Splitting a well-formed benchmark name by the slash grammar yields
exactly the five components it was built from. -/
theorem splitOn_buildName (d : Dir) (i : Impl) (m : Mode) (inp freq q : List Char)
    (hinp : '/' ∉ inp) (hfreq : isTierName freq) (hq : '/' ∉ q) :
    splitOn '/' (buildName d.dirName i.rname m.config inp freq q) =
      [d.dirName, i.rname, m.config, inp, freq ++ '-' :: q] := by
  have hlast : '/' ∉ freq ++ '-' :: q := by
    intro hmem
    rcases List.mem_append.mp hmem with hmem | hmem
    · exact slash_not_mem_tier freq hfreq hmem
    · rcases List.mem_cons.mp hmem with hmem | hmem
      · exact absurd hmem (by decide)
      · exact hq hmem
  unfold buildName
  rw [splitOn_append '/' _ _ (slash_not_mem_dirName d),
    splitOn_append '/' _ _ (slash_not_mem_rname i),
    splitOn_append '/' _ _ (slash_not_mem_config m),
    splitOn_append '/' _ _ hinp,
    splitOn_sep_not_mem '/' _ hlast]

/-- Decoding a well-formed benchmark name recovers the generation tuple:
the round-trip of the Name Builder. -/
theorem parseName_buildName (d : Dir) (i : Impl) (m : Mode) (inp freq q : List Char)
    (hinp : '/' ∉ inp) (hfreq : isTierName freq) (hq : '/' ∉ q) :
    parseName (buildName d.dirName i.rname m.config inp freq q) =
      some (d, i, m, inp, freq, q) := by
  unfold parseName
  rw [splitOn_buildName d i m inp freq q hinp hfreq hq]
  simp only [parseDir_dirName, parseImpl_rname, parseMode_config,
    parseTierQuery_build freq q hfreq]

/-! ### Membership structure of the generation pass -/

theorem mem_oneshotDefImpl {avail : Avail} {inp : Input} {q : Query}
    {freq : List Char} {impl : Impl} {b : Bench}
    (hb : b ∈ oneshotDefImpl avail inp q freq impl) :
    (q.count ≤ 1 ∧ "oneshot".toList ∈ avail impl q.needle) ∧
      ∃ dir, b = oneshotMk inp q freq impl dir ∧
        (dir = .rev → "reverse".toList ∈ avail impl q.needle) := by
  unfold oneshotDefImpl at hb
  by_cases hcond : q.count ≤ 1 ∧ "oneshot".toList ∈ avail impl q.needle
  · rw [if_pos hcond] at hb
    refine ⟨hcond, ?_⟩
    rcases List.mem_append.mp hb with hb | hb
    · exact ⟨.fwd, List.mem_singleton.mp hb, fun h => nomatch h⟩
    · by_cases hrev : "reverse".toList ∈ avail impl q.needle
      · rw [if_pos hrev] at hb
        exact ⟨.rev, List.mem_singleton.mp hb, fun _ => hrev⟩
      · rw [if_neg hrev] at hb
        exact absurd hb (List.not_mem_nil b)
  · rw [if_neg hcond] at hb
    exact absurd hb (List.not_mem_nil b)

theorem mem_prebuiltDefImpl {avail : Avail} {inp : Input} {q : Query}
    {freq : List Char} {impl : Impl} {b : Bench}
    (hb : b ∈ prebuiltDefImpl avail inp q freq impl) :
    (q.count ≤ 1 ∧ "prebuilt".toList ∈ avail impl q.needle) ∧
      ∃ dir, b = prebuiltMk inp q freq impl dir ∧
        (dir = .rev → "reverse".toList ∈ avail impl q.needle) := by
  unfold prebuiltDefImpl at hb
  by_cases hcond : q.count ≤ 1 ∧ "prebuilt".toList ∈ avail impl q.needle
  · rw [if_pos hcond] at hb
    refine ⟨hcond, ?_⟩
    rcases List.mem_append.mp hb with hb | hb
    · exact ⟨.fwd, List.mem_singleton.mp hb, fun h => nomatch h⟩
    · by_cases hrev : "reverse".toList ∈ avail impl q.needle
      · rw [if_pos hrev] at hb
        exact ⟨.rev, List.mem_singleton.mp hb, fun _ => hrev⟩
      · rw [if_neg hrev] at hb
        exact absurd hb (List.not_mem_nil b)
  · rw [if_neg hcond] at hb
    exact absurd hb (List.not_mem_nil b)

theorem mem_oneshotIterDefImpl {avail : Avail} {inp : Input} {q : Query}
    {freq : List Char} {impl : Impl} {b : Bench}
    (hb : b ∈ oneshotIterDefImpl avail inp q freq impl) :
    (1 < q.count ∧ "oneshotiter".toList ∈ avail impl q.needle) ∧
      ∃ dir, b = oneshotIterMk inp q freq impl dir ∧
        (dir = .rev → "reverse".toList ∈ avail impl q.needle) := by
  unfold oneshotIterDefImpl at hb
  by_cases hcond : 1 < q.count ∧ "oneshotiter".toList ∈ avail impl q.needle
  · rw [if_pos hcond] at hb
    refine ⟨hcond, ?_⟩
    rcases List.mem_append.mp hb with hb | hb
    · exact ⟨.fwd, List.mem_singleton.mp hb, fun h => nomatch h⟩
    · by_cases hrev : "reverse".toList ∈ avail impl q.needle
      · rw [if_pos hrev] at hb
        exact ⟨.rev, List.mem_singleton.mp hb, fun _ => hrev⟩
      · rw [if_neg hrev] at hb
        exact absurd hb (List.not_mem_nil b)
  · rw [if_neg hcond] at hb
    exact absurd hb (List.not_mem_nil b)

theorem mem_prebuiltIterDefImpl {avail : Avail} {inp : Input} {q : Query}
    {freq : List Char} {impl : Impl} {b : Bench}
    (hb : b ∈ prebuiltIterDefImpl avail inp q freq impl) :
    (1 < q.count ∧ "prebuiltiter".toList ∈ avail impl q.needle) ∧
      ∃ dir, b = prebuiltIterMk inp q freq impl dir ∧
        (dir = .rev → "reverse".toList ∈ avail impl q.needle) := by
  unfold prebuiltIterDefImpl at hb
  by_cases hcond : 1 < q.count ∧ "prebuiltiter".toList ∈ avail impl q.needle
  · rw [if_pos hcond] at hb
    refine ⟨hcond, ?_⟩
    rcases List.mem_append.mp hb with hb | hb
    · exact ⟨.fwd, List.mem_singleton.mp hb, fun h => nomatch h⟩
    · by_cases hrev : "reverse".toList ∈ avail impl q.needle
      · rw [if_pos hrev] at hb
        exact ⟨.rev, List.mem_singleton.mp hb, fun _ => hrev⟩
      · rw [if_neg hrev] at hb
        exact absurd hb (List.not_mem_nil b)
  · rw [if_neg hcond] at hb
    exact absurd hb (List.not_mem_nil b)

theorem mem_passBenches {f : Input → Query → List Char → Impl → List Bench}
    {catalog : List Input} {b : Bench} (hb : b ∈ passBenches f catalog) :
    ∃ inp ∈ catalog, ∃ impl ∈ implOrder, ∃ q freq,
      ((q ∈ inp.never ∧ freq = "never".toList) ∨ (q ∈ inp.rare ∧ freq = "rare".toList) ∨
        (q ∈ inp.common ∧ freq = "common".toList)) ∧
      b ∈ f inp q freq impl := by
  unfold passBenches at hb
  obtain ⟨inp, hinp, hmem⟩ := List.mem_flatMap.mp hb
  rcases List.mem_append.mp hmem with hmem12 | hmem
  · rcases List.mem_append.mp hmem12 with hmem | hmem
    · obtain ⟨qq, hqq, hmem⟩ := List.mem_flatMap.mp hmem
      obtain ⟨ii, hii, hmem⟩ := List.mem_flatMap.mp hmem
      exact ⟨inp, hinp, ii, hii, qq, "never".toList, Or.inl ⟨hqq, rfl⟩, hmem⟩
    · obtain ⟨qq, hqq, hmem⟩ := List.mem_flatMap.mp hmem
      obtain ⟨ii, hii, hmem⟩ := List.mem_flatMap.mp hmem
      exact ⟨inp, hinp, ii, hii, qq, "rare".toList, Or.inr (Or.inl ⟨hqq, rfl⟩), hmem⟩
  · obtain ⟨qq, hqq, hmem⟩ := List.mem_flatMap.mp hmem
    obtain ⟨ii, hii, hmem⟩ := List.mem_flatMap.mp hmem
    exact ⟨inp, hinp, ii, hii, qq, "common".toList, Or.inr (Or.inr ⟨hqq, rfl⟩), hmem⟩

theorem mem_passBenches_intro {f : Input → Query → List Char → Impl → List Bench}
    {catalog : List Input} {inp : Input} {qq : Query} {freq : List Char}
    {ii : Impl} {b : Bench} (hinp : inp ∈ catalog) (himpl : ii ∈ implOrder)
    (hq : (qq ∈ inp.never ∧ freq = "never".toList) ∨ (qq ∈ inp.rare ∧ freq = "rare".toList) ∨
      (qq ∈ inp.common ∧ freq = "common".toList))
    (hb : b ∈ f inp qq freq ii) : b ∈ passBenches f catalog := by
  unfold passBenches
  apply List.mem_flatMap.mpr
  refine ⟨inp, hinp, ?_⟩
  apply List.mem_append.mpr
  rcases hq with ⟨hqq, hf⟩ | ⟨hqq, hf⟩ | ⟨hqq, hf⟩
  · refine Or.inl (List.mem_append.mpr (Or.inl ?_))
    exact List.mem_flatMap.mpr ⟨qq, hqq, List.mem_flatMap.mpr ⟨ii, himpl, hf ▸ hb⟩⟩
  · refine Or.inl (List.mem_append.mpr (Or.inr ?_))
    exact List.mem_flatMap.mpr ⟨qq, hqq, List.mem_flatMap.mpr ⟨ii, himpl, hf ▸ hb⟩⟩
  · refine Or.inr ?_
    exact List.mem_flatMap.mpr ⟨qq, hqq, List.mem_flatMap.mpr ⟨ii, himpl, hf ▸ hb⟩⟩

theorem mem_allMatrix {catalog : List Input} {avail : Avail} {b : Bench}
    (hb : b ∈ allMatrix catalog avail) :
    b ∈ oneshotPass catalog avail ∨ b ∈ prebuiltPass catalog avail ∨
      b ∈ oneshotIterPass catalog avail ∨ b ∈ prebuiltIterPass catalog avail := by
  simpa [allMatrix, List.mem_append, or_assoc] using hb

/-- Every matrix benchmark arises from an input of the catalog, an
implementation, a query of one of the three tiers, a direction admitted
by the capability set, and exactly one of the four mode passes with its
admission rule satisfied. -/
theorem allMatrix_cases {catalog : List Input} {avail : Avail} {b : Bench}
    (hb : b ∈ allMatrix catalog avail) :
    ∃ inp ∈ catalog, ∃ ii ∈ implOrder, ∃ qq freq dir,
      ((qq ∈ inp.never ∧ freq = "never".toList) ∨ (qq ∈ inp.rare ∧ freq = "rare".toList) ∨
        (qq ∈ inp.common ∧ freq = "common".toList)) ∧
      (dir = .rev → "reverse".toList ∈ avail ii qq.needle) ∧
      ((qq.count ≤ 1 ∧ "oneshot".toList ∈ avail ii qq.needle ∧
          b = oneshotMk inp qq freq ii dir) ∨
       (qq.count ≤ 1 ∧ "prebuilt".toList ∈ avail ii qq.needle ∧
          b = prebuiltMk inp qq freq ii dir) ∨
       (1 < qq.count ∧ "oneshotiter".toList ∈ avail ii qq.needle ∧
          b = oneshotIterMk inp qq freq ii dir) ∨
       (1 < qq.count ∧ "prebuiltiter".toList ∈ avail ii qq.needle ∧
          b = prebuiltIterMk inp qq freq ii dir)) := by
  rcases mem_allMatrix hb with hp | hp | hp | hp
  · obtain ⟨inp, hinp, ii, hii, qq, freq, htier, hmem⟩ := mem_passBenches hp
    obtain ⟨⟨hcnt, hcap⟩, dir, hbeq, hrev⟩ := mem_oneshotDefImpl hmem
    exact ⟨inp, hinp, ii, hii, qq, freq, dir, htier, hrev, Or.inl ⟨hcnt, hcap, hbeq⟩⟩
  · obtain ⟨inp, hinp, ii, hii, qq, freq, htier, hmem⟩ := mem_passBenches hp
    obtain ⟨⟨hcnt, hcap⟩, dir, hbeq, hrev⟩ := mem_prebuiltDefImpl hmem
    exact ⟨inp, hinp, ii, hii, qq, freq, dir, htier, hrev, Or.inr (Or.inl ⟨hcnt, hcap, hbeq⟩)⟩
  · obtain ⟨inp, hinp, ii, hii, qq, freq, htier, hmem⟩ := mem_passBenches hp
    obtain ⟨⟨hcnt, hcap⟩, dir, hbeq, hrev⟩ := mem_oneshotIterDefImpl hmem
    exact ⟨inp, hinp, ii, hii, qq, freq, dir, htier, hrev,
      Or.inr (Or.inr (Or.inl ⟨hcnt, hcap, hbeq⟩))⟩
  · obtain ⟨inp, hinp, ii, hii, qq, freq, htier, hmem⟩ := mem_passBenches hp
    obtain ⟨⟨hcnt, hcap⟩, dir, hbeq, hrev⟩ := mem_prebuiltIterDefImpl hmem
    exact ⟨inp, hinp, ii, hii, qq, freq, dir, htier, hrev,
      Or.inr (Or.inr (Or.inr ⟨hcnt, hcap, hbeq⟩))⟩

theorem startsWith_append (p t : List Char) : startsWith p (p ++ t) = true := by
  induction p with
  | nil => rfl
  | cons c cs ih => simp [startsWith, ih]

theorem startsWith_memmem (rest : List Char) :
    startsWith "memmem/".toList ("memmem".toList ++ '/' :: rest) = true := by
  show startsWith "memmem/".toList ("memmem/".toList ++ rest) = true
  exact startsWith_append _ _

theorem not_startsWith_memrmem (rest : List Char) :
    startsWith "memrmem/".toList ("memmem".toList ++ '/' :: rest) = false := rfl

/-- C1: oneshot and prebuilt benchmarks are generated only for queries
with count at most one whose capability set contains the mode;
oneshotiter and prebuiltiter benchmarks only for queries with count
above one whose capability set contains the mode; and no query ever has
benchmarks in both the single-shot family and the iteration family. -/
theorem single_shot_iteration_partition (catalog : List Input) (avail : Avail) :
    (∀ b ∈ allMatrix catalog avail,
      ((b.mode = .oneshot ∨ b.mode = .prebuilt) →
        b.q.count ≤ 1 ∧ b.mode.config ∈ avail b.impl b.q.needle) ∧
      ((b.mode = .oneshotiter ∨ b.mode = .prebuiltiter) →
        1 < b.q.count ∧ b.mode.config ∈ avail b.impl b.q.needle)) ∧
    (∀ b1 ∈ allMatrix catalog avail, ∀ b2 ∈ allMatrix catalog avail, b1.q = b2.q →
      (b1.mode = .oneshot ∨ b1.mode = .prebuilt) →
      (b2.mode = .oneshotiter ∨ b2.mode = .prebuiltiter) → False) := by
  have hmain : ∀ b ∈ allMatrix catalog avail,
      ((b.mode = .oneshot ∨ b.mode = .prebuilt) →
        b.q.count ≤ 1 ∧ b.mode.config ∈ avail b.impl b.q.needle) ∧
      ((b.mode = .oneshotiter ∨ b.mode = .prebuiltiter) →
        1 < b.q.count ∧ b.mode.config ∈ avail b.impl b.q.needle) := by
    intro b hb
    obtain ⟨inp, hinp, ii, hii, qq, freq, dir, htier, hrev, hcase⟩ := allMatrix_cases hb
    rcases hcase with ⟨hcnt, hcap, hbeq⟩ | ⟨hcnt, hcap, hbeq⟩ | ⟨hcnt, hcap, hbeq⟩ |
      ⟨hcnt, hcap, hbeq⟩ <;> subst hbeq
    · exact ⟨fun _ => ⟨hcnt, hcap⟩, fun h => by rcases h with h | h <;> exact (nomatch h)⟩
    · exact ⟨fun _ => ⟨hcnt, hcap⟩, fun h => by rcases h with h | h <;> exact (nomatch h)⟩
    · exact ⟨fun h => by rcases h with h | h <;> exact (nomatch h), fun _ => ⟨hcnt, hcap⟩⟩
    · exact ⟨fun h => by rcases h with h | h <;> exact (nomatch h), fun _ => ⟨hcnt, hcap⟩⟩
  refine ⟨hmain, ?_⟩
  intro b1 h1 b2 h2 hq hs1 hi2
  have hc1 : b1.q.count ≤ 1 := ((hmain b1 h1).1 hs1).1
  have hc2 : 1 < b2.q.count := ((hmain b2 h2).2 hi2).1
  have hqc : b1.q.count = b2.q.count := by rw [hq]
  omega

/-- C4: every registered closure asserts the search result against the
query's ground truth: a boolean `count > 0` in the single-shot modes and
exactly `count` in the iteration modes. -/
theorem closure_asserts_ground_truth (catalog : List Input) (avail : Avail)
    (b : Bench) (hb : b ∈ allMatrix catalog avail) :
    ((b.mode = .oneshot ∨ b.mode = .prebuilt) →
      b.assertS = .boolean (decide (0 < b.q.count))) ∧
    ((b.mode = .oneshotiter ∨ b.mode = .prebuiltiter) →
      b.assertS = .countEq b.q.count) := by
  obtain ⟨inp, hinp, ii, hii, qq, freq, dir, htier, hrev, hcase⟩ := allMatrix_cases hb
  rcases hcase with ⟨hcnt, hcap, hbeq⟩ | ⟨hcnt, hcap, hbeq⟩ | ⟨hcnt, hcap, hbeq⟩ |
    ⟨hcnt, hcap, hbeq⟩ <;> subst hbeq
  · exact ⟨fun _ => rfl, fun h => by rcases h with h | h <;> exact (nomatch h)⟩
  · exact ⟨fun _ => rfl, fun h => by rcases h with h | h <;> exact (nomatch h)⟩
  · exact ⟨fun h => by rcases h with h | h <;> exact (nomatch h), fun _ => rfl⟩
  · exact ⟨fun h => by rcases h with h | h <;> exact (nomatch h), fun _ => rfl⟩

/-- C7: in the prebuilt modes the searcher is constructed exactly once in
the setup part of the closure, outside the timed body, which never
constructs; in the oneshot modes construction happens inside the timed
body and there is no setup. -/
theorem construction_placement (catalog : List Input) (avail : Avail)
    (b : Bench) (hb : b ∈ allMatrix catalog avail) :
    ((b.mode = .prebuilt ∨ b.mode = .prebuiltiter) →
      b.closure.setup = [.construct] ∧ Op.construct ∉ b.closure.timed) ∧
    ((b.mode = .oneshot ∨ b.mode = .oneshotiter) →
      b.closure.setup = [] ∧ Op.construct ∈ b.closure.timed) := by
  obtain ⟨inp, hinp, ii, hii, qq, freq, dir, htier, hrev, hcase⟩ := allMatrix_cases hb
  rcases hcase with ⟨hcnt, hcap, hbeq⟩ | ⟨hcnt, hcap, hbeq⟩ | ⟨hcnt, hcap, hbeq⟩ |
    ⟨hcnt, hcap, hbeq⟩ <;> subst hbeq
  · exact ⟨fun h => by rcases h with h | h <;> exact (nomatch h),
      fun _ => ⟨rfl, by show Op.construct ∈ [Op.construct, Op.search]; decide⟩⟩
  · exact ⟨fun _ => ⟨rfl, by show Op.construct ∉ [Op.search]; decide⟩,
      fun h => by rcases h with h | h <;> exact (nomatch h)⟩
  · exact ⟨fun h => by rcases h with h | h <;> exact (nomatch h),
      fun _ => ⟨rfl, by show Op.construct ∈ [Op.construct, Op.iterCount]; decide⟩⟩
  · exact ⟨fun _ => ⟨rfl, by show Op.construct ∉ [Op.iterCount]; decide⟩,
      fun h => by rcases h with h | h <;> exact (nomatch h)⟩

/-- C5: if an implementation's capability set for a needle does not
contain `"reverse"`, then every benchmark registered for that
(implementation, needle) pair has a name in the `memmem/` group and none
in the `memrmem/` group. -/
theorem no_reverse_capability_no_memrmem (catalog : List Input) (avail : Avail)
    (impl0 : Impl) (needle0 : List Nat)
    (hnorev : "reverse".toList ∉ avail impl0 needle0)
    (b : Bench) (hb : b ∈ allMatrix catalog avail)
    (hi : b.impl = impl0) (hn : b.q.needle = needle0) :
    startsWith "memrmem/".toList b.name = false ∧
      startsWith "memmem/".toList b.name = true := by
  obtain ⟨inp, hinp, ii, hii, qq, freq, dir, htier, hrev, hcase⟩ := allMatrix_cases hb
  have hdirf : dir = Dir.fwd := by
    cases dir with
    | fwd => rfl
    | rev =>
      exfalso
      apply hnorev
      have hmem := hrev rfl
      rcases hcase with ⟨_, _, hbeq⟩ | ⟨_, _, hbeq⟩ | ⟨_, _, hbeq⟩ | ⟨_, _, hbeq⟩ <;>
        subst hbeq <;> rw [← hi, ← hn] <;> exact hmem
  subst hdirf
  rcases hcase with ⟨_, _, hbeq⟩ | ⟨_, _, hbeq⟩ | ⟨_, _, hbeq⟩ | ⟨_, _, hbeq⟩ <;>
    subst hbeq <;> exact ⟨not_startsWith_memrmem _, startsWith_memmem _⟩

/-- Decoding the name of any generated matrix benchmark over a
pre-sanitized catalog recovers its generation tuple. -/
theorem parseName_of_mem_allMatrix {catalog : List Input} {avail : Avail}
    (hs : sanitizedCatalog catalog) {b : Bench} (hb : b ∈ allMatrix catalog avail) :
    parseName b.name = some b.tuple := by
  obtain ⟨inp, hinp, ii, hii, qq, freq, dir, htier, hrev, hcase⟩ := allMatrix_cases hb
  obtain ⟨hinpname, hqnames⟩ := hs inp hinp
  have hqname : '/' ∉ qq.name := by
    apply hqnames
    rcases htier with ⟨hq, _⟩ | ⟨hq, _⟩ | ⟨hq, _⟩
    · exact List.mem_append.mpr (Or.inl (List.mem_append.mpr (Or.inl hq)))
    · exact List.mem_append.mpr (Or.inl (List.mem_append.mpr (Or.inr hq)))
    · exact List.mem_append.mpr (Or.inr hq)
  have hfreq : isTierName freq := by
    rcases htier with ⟨_, hf⟩ | ⟨_, hf⟩ | ⟨_, hf⟩
    · exact Or.inl hf
    · exact Or.inr (Or.inl hf)
    · exact Or.inr (Or.inr hf)
  rcases hcase with ⟨_, _, hbeq⟩ | ⟨_, _, hbeq⟩ | ⟨_, _, hbeq⟩ | ⟨_, _, hbeq⟩ <;> subst hbeq
  · exact parseName_buildName dir ii .oneshot inp.name freq qq.name hinpname hfreq hqname
  · exact parseName_buildName dir ii .prebuilt inp.name freq qq.name hinpname hfreq hqname
  · exact parseName_buildName dir ii .oneshotiter inp.name freq qq.name hinpname hfreq hqname
  · exact parseName_buildName dir ii .prebuiltiter inp.name freq qq.name hinpname hfreq hqname

/-- C3: parsing the name of any generated benchmark by the fixed slash
grammar recovers exactly the (direction, implementation, mode, input
name, tier, query name) tuple it was built from: decoding is a left
inverse of the Name Builder on admitted combinations. -/
theorem name_decode_roundtrip (catalog : List Input) (avail : Avail)
    (hs : sanitizedCatalog catalog) (b : Bench) (hb : b ∈ allMatrix catalog avail) :
    parseName b.name = some (b.dir, b.impl, b.mode, b.inpName, b.freq, b.q.name) :=
  parseName_of_mem_allMatrix hs hb

/-- C2: over the full generated matrix the name builder is injective on
admitted combinations: two generated benchmarks with an equal name have
an equal generation tuple, so distinct tuples always get distinct names. -/
theorem name_builder_injective (catalog : List Input) (avail : Avail)
    (hs : sanitizedCatalog catalog) (b1 b2 : Bench)
    (h1 : b1 ∈ allMatrix catalog avail) (h2 : b2 ∈ allMatrix catalog avail)
    (hne : b1.tuple ≠ b2.tuple) : b1.name ≠ b2.name := by
  intro hname
  apply hne
  have hp1 := parseName_of_mem_allMatrix hs h1
  have hp2 := parseName_of_mem_allMatrix hs h2
  rw [hname, hp2] at hp1
  exact (Option.some.injEq _ _ ▸ hp1).symm

theorem fwd_mem_oneshotDefImpl {avail : Avail} {inp : Input} {q : Query}
    {freq : List Char} {impl : Impl} (hcnt : q.count ≤ 1)
    (hcap : "oneshot".toList ∈ avail impl q.needle) :
    oneshotMk inp q freq impl .fwd ∈ oneshotDefImpl avail inp q freq impl := by
  unfold oneshotDefImpl
  rw [if_pos ⟨hcnt, hcap⟩]
  exact List.mem_append.mpr (Or.inl (List.mem_singleton.mpr rfl))

theorem fwd_mem_prebuiltDefImpl {avail : Avail} {inp : Input} {q : Query}
    {freq : List Char} {impl : Impl} (hcnt : q.count ≤ 1)
    (hcap : "prebuilt".toList ∈ avail impl q.needle) :
    prebuiltMk inp q freq impl .fwd ∈ prebuiltDefImpl avail inp q freq impl := by
  unfold prebuiltDefImpl
  rw [if_pos ⟨hcnt, hcap⟩]
  exact List.mem_append.mpr (Or.inl (List.mem_singleton.mpr rfl))

theorem fwd_mem_oneshotIterDefImpl {avail : Avail} {inp : Input} {q : Query}
    {freq : List Char} {impl : Impl} (hcnt : 1 < q.count)
    (hcap : "oneshotiter".toList ∈ avail impl q.needle) :
    oneshotIterMk inp q freq impl .fwd ∈ oneshotIterDefImpl avail inp q freq impl := by
  unfold oneshotIterDefImpl
  rw [if_pos ⟨hcnt, hcap⟩]
  exact List.mem_append.mpr (Or.inl (List.mem_singleton.mpr rfl))

theorem fwd_mem_prebuiltIterDefImpl {avail : Avail} {inp : Input} {q : Query}
    {freq : List Char} {impl : Impl} (hcnt : 1 < q.count)
    (hcap : "prebuiltiter".toList ∈ avail impl q.needle) :
    prebuiltIterMk inp q freq impl .fwd ∈ prebuiltIterDefImpl avail inp q freq impl := by
  unfold prebuiltIterDefImpl
  rw [if_pos ⟨hcnt, hcap⟩]
  exact List.mem_append.mpr (Or.inl (List.mem_singleton.mpr rfl))

theorem mem_allMatrix_intro {catalog : List Input} {avail : Avail} {b : Bench}
    (h : b ∈ oneshotPass catalog avail ∨ b ∈ prebuiltPass catalog avail ∨
      b ∈ oneshotIterPass catalog avail ∨ b ∈ prebuiltIterPass catalog avail) :
    b ∈ allMatrix catalog avail := by
  unfold allMatrix
  simp only [List.mem_append]
  tauto

/-- C10: whenever a reverse-direction benchmark is registered, the
forward-direction benchmark with the same implementation, mode, input,
tier and query is also registered, with a name in the `memmem/` group,
because the forward benchmark is defined unconditionally inside the same
admission-and-capability check. -/
theorem reverse_implies_forward (catalog : List Input) (avail : Avail)
    (b : Bench) (hb : b ∈ allMatrix catalog avail) (hdir : b.dir = .rev) :
    ∃ b2 ∈ allMatrix catalog avail, b2.dir = .fwd ∧ b2.impl = b.impl ∧
      b2.mode = b.mode ∧ b2.inpName = b.inpName ∧ b2.freq = b.freq ∧ b2.q = b.q ∧
      startsWith "memmem/".toList b2.name = true := by
  obtain ⟨inp, hinp, ii, hii, qq, freq, dir, htier, hrev, hcase⟩ := allMatrix_cases hb
  rcases hcase with ⟨hcnt, hcap, hbeq⟩ | ⟨hcnt, hcap, hbeq⟩ | ⟨hcnt, hcap, hbeq⟩ |
    ⟨hcnt, hcap, hbeq⟩ <;> subst hbeq
  · exact ⟨oneshotMk inp qq freq ii .fwd,
      mem_allMatrix_intro (Or.inl (mem_passBenches_intro hinp hii htier
        (fwd_mem_oneshotDefImpl hcnt hcap))),
      rfl, rfl, rfl, rfl, rfl, rfl, startsWith_memmem _⟩
  · exact ⟨prebuiltMk inp qq freq ii .fwd,
      mem_allMatrix_intro (Or.inr (Or.inl (mem_passBenches_intro hinp hii htier
        (fwd_mem_prebuiltDefImpl hcnt hcap)))),
      rfl, rfl, rfl, rfl, rfl, rfl, startsWith_memmem _⟩
  · exact ⟨oneshotIterMk inp qq freq ii .fwd,
      mem_allMatrix_intro (Or.inr (Or.inr (Or.inl (mem_passBenches_intro hinp hii htier
        (fwd_mem_oneshotIterDefImpl hcnt hcap))))),
      rfl, rfl, rfl, rfl, rfl, rfl, startsWith_memmem _⟩
  · exact ⟨prebuiltIterMk inp qq freq ii .fwd,
      mem_allMatrix_intro (Or.inr (Or.inr (Or.inr (mem_passBenches_intro hinp hii htier
        (fwd_mem_prebuiltIterDefImpl hcnt hcap))))),
      rfl, rfl, rfl, rfl, rfl, rfl, startsWith_memmem _⟩

/-- Splitting the name of any generated matrix benchmark over a
pre-sanitized catalog yields exactly its five components. -/
theorem splitOn_name_of_mem_allMatrix {catalog : List Input} {avail : Avail}
    (hs : sanitizedCatalog catalog) {b : Bench} (hb : b ∈ allMatrix catalog avail) :
    splitOn '/' b.name =
      [b.dir.dirName, b.impl.rname, b.mode.config, b.inpName,
        b.freq ++ '-' :: b.q.name] := by
  obtain ⟨inp, hinp, ii, hii, qq, freq, dir, htier, hrev, hcase⟩ := allMatrix_cases hb
  obtain ⟨hinpname, hqnames⟩ := hs inp hinp
  have hqname : '/' ∉ qq.name := by
    apply hqnames
    rcases htier with ⟨hq, _⟩ | ⟨hq, _⟩ | ⟨hq, _⟩
    · exact List.mem_append.mpr (Or.inl (List.mem_append.mpr (Or.inl hq)))
    · exact List.mem_append.mpr (Or.inl (List.mem_append.mpr (Or.inr hq)))
    · exact List.mem_append.mpr (Or.inr hq)
  have hfreq : isTierName freq := by
    rcases htier with ⟨_, hf⟩ | ⟨_, hf⟩ | ⟨_, hf⟩
    · exact Or.inl hf
    · exact Or.inr (Or.inl hf)
    · exact Or.inr (Or.inr hf)
  rcases hcase with ⟨_, _, hbeq⟩ | ⟨_, _, hbeq⟩ | ⟨_, _, hbeq⟩ | ⟨_, _, hbeq⟩ <;> subst hbeq
  · exact splitOn_buildName dir ii .oneshot inp.name freq qq.name hinpname hfreq hqname
  · exact splitOn_buildName dir ii .prebuilt inp.name freq qq.name hinpname hfreq hqname
  · exact splitOn_buildName dir ii .oneshotiter inp.name freq qq.name hinpname hfreq hqname
  · exact splitOn_buildName dir ii .prebuiltiter inp.name freq qq.name hinpname hfreq hqname

/-- C6 is false as stated: the name
`memmem/krate/misc/construct-finder/default(len=1)` is registered by the
generation pass (by `finder_construction`), has five slash-separated
components, and its third component is `misc`, which is not one of the
four mode configs. -/
theorem registered_names_grammar_cex :
    "memmem/krate/misc/construct-finder/default(len=1)".toList ∈
        allRegisteredNames [] (fun _ _ => []) [] ∧
      (splitOn '/' "memmem/krate/misc/construct-finder/default(len=1)".toList).length = 5 ∧
      (splitOn '/' "memmem/krate/misc/construct-finder/default(len=1)".toList).get? 2 =
        some "misc".toList ∧
      "misc".toList ∉ ["oneshot".toList, "prebuilt".toList, "oneshotiter".toList,
        "prebuiltiter".toList] := by
  decide

/-- The config string of every mode is one of the four fixed values. -/
theorem mode_config_cases (m : Mode) :
    m.config = "oneshot".toList ∨ m.config = "prebuilt".toList ∨
      m.config = "oneshotiter".toList ∨ m.config = "prebuiltiter".toList := by
  cases m
  · exact Or.inl rfl
  · exact Or.inr (Or.inl rfl)
  · exact Or.inr (Or.inr (Or.inl rfl))
  · exact Or.inr (Or.inr (Or.inr rfl))

/-- Every name of a misc benchmark (`finder_construction` or
`byte_frequencies`) splits into five components with third component
`misc`. -/
theorem misc_name_components (exeBytes : List Nat) (nm : List Char)
    (hm : nm ∈ (finderConstruction ++ byteFrequenciesBenches exeBytes).map MiscBench.name) :
    (splitOn '/' nm).length = 5 ∧ (splitOn '/' nm).get? 2 = some "misc".toList := by
  have hlist : (finderConstruction ++ byteFrequenciesBenches exeBytes).map MiscBench.name =
      ["memmem/krate/misc/construct-finder/default(len=1)".toList,
        "memmem/krate/misc/construct-finder/custom(len=1)".toList,
        "memmem/krate/misc/construct-finder/default(len=4)".toList,
        "memmem/krate/misc/construct-finder/custom(len=4)".toList,
        "memmem/krate/misc/construct-finder/default(len=16)".toList,
        "memmem/krate/misc/construct-finder/custom(len=16)".toList,
        "memmem/krate/misc/frequency-table/default".toList,
        "memmem/krate/misc/frequency-table/custom".toList] := rfl
  rw [hlist] at hm
  simp only [List.mem_cons, List.not_mem_nil, or_false] at hm
  rcases hm with h | h | h | h | h | h | h | h <;> subst h <;> exact ⟨by decide, by decide⟩

/-- C6 (amended): every benchmark name registered by the modelled
generation pass (the four matrix passes, `finder_construction` and
`byte_frequencies`) has exactly five slash-free components; every matrix
benchmark carrying the name has its own mode config — one of oneshot,
prebuilt, oneshotiter, prebuiltiter — as the third component, while
every misc benchmark carrying the name has third component `misc`. -/
theorem registered_names_grammar (catalog : List Input) (avail : Avail)
    (exeBytes : List Nat) (hs : sanitizedCatalog catalog)
    (nm : List Char) (hnm : nm ∈ allRegisteredNames catalog avail exeBytes) :
    (splitOn '/' nm).length = 5 ∧ (∀ comp ∈ splitOn '/' nm, '/' ∉ comp) ∧
      (∀ b ∈ allMatrix catalog avail, nm = b.name →
        (splitOn '/' nm).get? 2 = some b.mode.config ∧
          (b.mode.config = "oneshot".toList ∨ b.mode.config = "prebuilt".toList ∨
            b.mode.config = "oneshotiter".toList ∨
            b.mode.config = "prebuiltiter".toList)) ∧
      (∀ mb ∈ finderConstruction ++ byteFrequenciesBenches exeBytes, nm = mb.name →
        (splitOn '/' nm).get? 2 = some "misc".toList) := by
  refine ⟨?_, fun comp hc => mem_splitOn_sep_not_mem '/' _ comp hc, ?_, ?_⟩
  · rcases List.mem_append.mp hnm with hm | hm
    · obtain ⟨b, hb, hbn⟩ := List.mem_map.mp hm
      subst hbn
      rw [splitOn_name_of_mem_allMatrix hs hb]
      rfl
    · exact (misc_name_components exeBytes nm hm).1
  · intro b hb hbn
    subst hbn
    have hsplit := splitOn_name_of_mem_allMatrix hs hb
    exact ⟨by rw [hsplit]; rfl, mode_config_cases b.mode⟩
  · intro mb hmb hbn
    subst hbn
    exact (misc_name_components exeBytes mb.name
      (List.mem_map_of_mem MiscBench.name hmb)).2

/-- C8: the `Hfrx86::rank` table lookup is total and deterministic over
all 256 byte values: the table has an entry for every byte, the lookup
is in bounds, and equal bytes always get equal scores. -/
theorem hfrx86_rank_total (byte : Nat) (hb : byte < 256) :
    byte < hfrx86Table.length ∧ (∃ s, hfrx86Rank byte = some s) ∧
      ∀ b2 : Nat, b2 = byte → hfrx86Rank b2 = hfrx86Rank byte := by
  have hlen : hfrx86Table.length = 256 := by decide
  refine ⟨by omega, ⟨_, List.get?_eq_get (by omega)⟩, fun b2 h => by rw [h]⟩

/-- C9: `byte_frequencies` reads the running executable first; a failed
read aborts before any of its benchmarks is registered, and on a
successful read both of its benchmarks use the bytes read from the
executable as their corpus. -/
theorem byte_frequencies_read_fatal :
    byteFrequencies none = none ∧
      ∀ exeBytes, ∃ l, byteFrequencies (some exeBytes) = some l ∧ l ≠ [] ∧
        ∀ mb ∈ l, mb.corpus = exeBytes := by
  refine ⟨rfl, fun exeBytes => ⟨byteFrequenciesBenches exeBytes, rfl, by
    simp [byteFrequenciesBenches], ?_⟩⟩
  intro mb hmb
  rcases List.mem_cons.mp hmb with h | h
  · subst h; rfl
  · rcases List.mem_singleton.mp h with h
    subst h; rfl

/-! ### Concrete witnesses -/

/-- A never-matching query for the witness catalog. -/
def wQueryNever : Query := { name := ['z'], needle := [122], count := 0 }

/-- A commonly-matching query for the witness catalog. -/
def wQueryCommon : Query := { name := ['a'], needle := [97], count := 3 }

/-- A one-input witness catalog with a never tier and a common tier. -/
def wInput : Input :=
  { name := ['x'], corpus := [97, 97, 97, 98], never := [wQueryNever], rare := [],
    common := [wQueryCommon] }

/-- The witness catalog. -/
def wCatalog : List Input := [wInput]

/-- A capability set granting all modes and reverse to `krate` only. -/
def wAvail : Avail := fun i _ =>
  if i = .krate then
    ["oneshot".toList, "prebuilt".toList, "oneshotiter".toList, "prebuiltiter".toList,
      "reverse".toList]
  else []

/-- A capability set granting the four modes but not reverse to `krate`. -/
def wAvailNoRev : Avail := fun i _ =>
  if i = .krate then
    ["oneshot".toList, "prebuilt".toList, "oneshotiter".toList, "prebuiltiter".toList]
  else []

/-- The forward oneshot benchmark of the witness never query. -/
def wBenchOneshotFwd : Bench := oneshotMk wInput wQueryNever "never".toList .krate .fwd

/-- The reverse oneshot benchmark of the witness never query. -/
def wBenchOneshotRev : Bench := oneshotMk wInput wQueryNever "never".toList .krate .rev

/-- The forward prebuilt benchmark of the witness never query. -/
def wBenchPrebuiltFwd : Bench := prebuiltMk wInput wQueryNever "never".toList .krate .fwd

/-- The forward oneshotiter benchmark of the witness common query. -/
def wBenchIterFwd : Bench := oneshotIterMk wInput wQueryCommon "common".toList .krate .fwd

/-- C1 witness: the generated oneshot benchmark of the witness catalog
satisfies the single-shot admission rule. -/
theorem single_shot_iteration_partition_witness :
    wBenchOneshotFwd.q.count ≤ 1 ∧
      Mode.config wBenchOneshotFwd.mode ∈
        wAvail wBenchOneshotFwd.impl wBenchOneshotFwd.q.needle :=
  ((single_shot_iteration_partition wCatalog wAvail).1 wBenchOneshotFwd
    (by decide)).1 (Or.inl rfl)

/-- C2 witness: the forward and reverse oneshot benchmarks of the witness
catalog have different tuples and hence different names. -/
theorem name_builder_injective_witness :
    wBenchOneshotFwd.name ≠ wBenchOneshotRev.name :=
  name_builder_injective wCatalog wAvail (by decide) wBenchOneshotFwd wBenchOneshotRev
    (by decide) (by decide) (by decide)

/-- C3 witness: the witness iteration benchmark's name decodes back to its
generation tuple. -/
theorem name_decode_roundtrip_witness :
    parseName wBenchIterFwd.name =
      some (wBenchIterFwd.dir, wBenchIterFwd.impl, wBenchIterFwd.mode,
        wBenchIterFwd.inpName, wBenchIterFwd.freq, wBenchIterFwd.q.name) :=
  name_decode_roundtrip wCatalog wAvail (by decide) wBenchIterFwd (by decide)

/-- C4 witness: the witness iteration benchmark asserts the exact match
count of its query. -/
theorem closure_asserts_ground_truth_witness :
    wBenchIterFwd.assertS = .countEq wBenchIterFwd.q.count :=
  (closure_asserts_ground_truth wCatalog wAvail wBenchIterFwd (by decide)).2 (Or.inl rfl)

/-- C5 witness: with reverse capability absent, the generated oneshot
benchmark for the never query is in the memmem group and not in the
memrmem group. -/
theorem no_reverse_capability_no_memrmem_witness :
    startsWith "memrmem/".toList wBenchOneshotFwd.name = false ∧
      startsWith "memmem/".toList wBenchOneshotFwd.name = true :=
  no_reverse_capability_no_memrmem wCatalog wAvailNoRev .krate [122] (by decide)
    wBenchOneshotFwd (by decide) rfl rfl

/-- C6 witness: the registered frequency-table name has five slash-free
components, every matrix benchmark carrying it would have its mode
config third, and every misc benchmark carrying it has `misc` third. -/
theorem registered_names_grammar_witness :
    (splitOn '/' "memmem/krate/misc/frequency-table/custom".toList).length = 5 ∧
      (∀ comp ∈ splitOn '/' "memmem/krate/misc/frequency-table/custom".toList,
        '/' ∉ comp) ∧
      (∀ b ∈ allMatrix wCatalog wAvail,
        "memmem/krate/misc/frequency-table/custom".toList = b.name →
        (splitOn '/' "memmem/krate/misc/frequency-table/custom".toList).get? 2 =
            some b.mode.config ∧
          (b.mode.config = "oneshot".toList ∨ b.mode.config = "prebuilt".toList ∨
            b.mode.config = "oneshotiter".toList ∨
            b.mode.config = "prebuiltiter".toList)) ∧
      (∀ mb ∈ finderConstruction ++ byteFrequenciesBenches [0],
        "memmem/krate/misc/frequency-table/custom".toList = mb.name →
        (splitOn '/' "memmem/krate/misc/frequency-table/custom".toList).get? 2 =
          some "misc".toList) :=
  registered_names_grammar wCatalog wAvail [0] (by decide)
    "memmem/krate/misc/frequency-table/custom".toList (by decide)

/-- C7 witness: the witness prebuilt benchmark constructs its searcher in
setup and never in the timed body. -/
theorem construction_placement_witness :
    wBenchPrebuiltFwd.closure.setup = [.construct] ∧
      Op.construct ∉ wBenchPrebuiltFwd.closure.timed :=
  (construction_placement wCatalog wAvail wBenchPrebuiltFwd (by decide)).1 (Or.inl rfl)

/-- C8 witness: byte 0 is in bounds and has a defined rank. -/
theorem hfrx86_rank_total_witness :
    0 < hfrx86Table.length ∧ (∃ s, hfrx86Rank 0 = some s) ∧
      ∀ b2 : Nat, b2 = 0 → hfrx86Rank b2 = hfrx86Rank 0 :=
  hfrx86_rank_total 0 (by decide)

/-- C9 witness: on a successful read of a one-byte executable, the
registered byte-frequency benchmarks use those bytes as corpus. -/
theorem byte_frequencies_read_fatal_witness :
    ∃ l, byteFrequencies (some [7]) = some l ∧ l ≠ [] ∧ ∀ mb ∈ l, mb.corpus = [7] :=
  byte_frequencies_read_fatal.2 [7]

/-- C10 witness: the reverse oneshot benchmark of the witness catalog has
a registered forward counterpart. -/
theorem reverse_implies_forward_witness :
    ∃ b2 ∈ allMatrix wCatalog wAvail, b2.dir = .fwd ∧
      b2.impl = wBenchOneshotRev.impl ∧ b2.mode = wBenchOneshotRev.mode ∧
      b2.inpName = wBenchOneshotRev.inpName ∧ b2.freq = wBenchOneshotRev.freq ∧
      b2.q = wBenchOneshotRev.q ∧
      startsWith "memmem/".toList b2.name = true :=
  reverse_implies_forward wCatalog wAvail wBenchOneshotRev (by decide) rfl
